import Mathlib

/- Verification of the push/reconciliation logic of
   src/hashdist/cli/remote_cli.py (class Push, method run).

   Python dicts are modelled as association lists (insert-or-replace
   assignment, first-match lookup), Python sets as duplicate-free lists,
   JSON serialization as a concrete rendering function, and file/network
   side effects as an explicit effect log carried in a run state. -/

/-- Association-list lookup, modelling Python dict indexing `d[k]`. -/
def alookup {β : Type} : List (String × β) → String → Option β
  | [], _ => none
  | (k, v) :: t, key => if k = key then some v else alookup t key

/-- Key membership, modelling Python `k in d` for a dict. -/
def amem {β : Type} (m : List (String × β)) (k : String) : Bool :=
  (alookup m k).isSome

/-- Dict assignment `d[k] = v`: replace in place if the key exists, else append. -/
def aset {β : Type} : List (String × β) → String → β → List (String × β)
  | [], k, v => [(k, v)]
  | (k', v') :: t, k, v => if k' = k then (k, v) :: t else (k', v') :: aset t k v

/-- Membership in a list of strings, modelling Python `x in list`. -/
def lmem (i : String) : List String → Bool
  | [] => false
  | x :: t => if x = i then true else lmem i t

theorem alookup_aset {β : Type} (m : List (String × β)) (k k' : String) (v : β) :
    alookup (aset m k v) k' = if k = k' then some v else alookup m k' := by
  induction m with
  | nil =>
      by_cases h : k = k' <;> simp [aset, alookup, h]
  | cons hd t ih =>
      obtain ⟨a, b⟩ := hd
      by_cases hak : a = k
      · subst hak
        by_cases h : a = k' <;> simp [aset, alookup, h]
      · by_cases hak' : a = k'
        · subst hak'
          have hkk' : ¬ k = a := fun h => hak h.symm
          simp [aset, hak, alookup, hkk']
        · simp [aset, hak, alookup, hak', ih]

theorem alookup_append_single {β : Type} (m : List (String × β)) (k k' : String) (v : β) :
    alookup (m ++ [(k, v)]) k' =
      match alookup m k' with
      | some w => some w
      | none => if k = k' then some v else none := by
  induction m with
  | nil => simp [alookup]
  | cons hd t ih =>
      obtain ⟨a, b⟩ := hd
      by_cases h : a = k' <;> simp [alookup, h, ih]

theorem lmem_iff (i : String) (l : List String) : lmem i l = true ↔ i ∈ l := by
  induction l with
  | nil => simp [lmem]
  | cons x t ih =>
      by_cases h : x = i
      · subst h; simp [lmem]
      · have : ¬ i = x := fun hh => h hh.symm
        simp [lmem, h, ih, this]

theorem lmem_append_one (i j : String) (l : List String) :
    lmem i (l ++ [j]) = true ↔ lmem i l = true ∨ j = i := by
  rw [lmem_iff, lmem_iff]
  constructor
  · intro h
    rcases List.mem_append.mp h with h | h
    · exact Or.inl h
    · simp at h; exact Or.inr h.symm
  · intro h
    rcases h with h | h
    · exact List.mem_append.mpr (Or.inl h)
    · exact List.mem_append.mpr (Or.inr (by simp [h]))

/-- Build manifest: package -> (artifact -> hex digest), cf. build_manifest.json. -/
abbrev BMan := List (String × List (String × String))

/-- Source manifest: pack-type subdirectory -> list of pack filenames,
cf. source_manifest.json (values are JSON lists, appended to in place). -/
abbrev SMan := List (String × List String)

/-- Push plan: collection key -> set of item names (Python dict of sets). -/
abbrev PPlan := List (String × List String)

/-- `artifact in manifest[package]` for the build manifest (dict-key test). -/
def entryHas (e : List (String × String)) (a : String) : Bool :=
  (alookup e a).isSome

/-- Name presence of an artifact under a package in the build manifest. -/
def bHas (m : BMan) (k a : String) : Bool :=
  match alookup m k with
  | none => false
  | some e => entryHas e a

/-- `manifest[package][artifact] = digest` (remote_cli.py line 289). -/
def bset (m : BMan) (k a dg : String) : BMan :=
  aset m k (aset ((alookup m k).getD []) a dg)

/-- `if package not in manifest: manifest[package] = {}` (lines 261-262). -/
def ensureB (m : BMan) (k : String) : BMan :=
  if amem m k then m else m ++ [(k, [])]

/-- `source_pack in manifest[subdir]` for the source manifest (list test). -/
def sHas (m : SMan) (k i : String) : Bool :=
  match alookup m k with
  | none => false
  | some l => lmem i l

/-- `manifest[subdir].append(source_pack)` (line 389). -/
def sappend (m : SMan) (k i : String) : SMan :=
  aset m k (((alookup m k).getD []) ++ [i])

/-- `if subdir not in manifest: manifest[subdir] = []` (lines 374-375). -/
def ensureS (m : SMan) (k : String) : SMan :=
  if amem m k then m else m ++ [(k, [])]

/-- Plan membership test. -/
def planHas (p : PPlan) (k i : String) : Bool :=
  match alookup p k with
  | none => false
  | some s => lmem i s

/-- `if key not in push_manifest: push_manifest[key] = set();
push_manifest[key].add(item)` (lines 272-274 and 383-385). -/
def planAdd (p : PPlan) (k i : String) : PPlan :=
  match alookup p k with
  | none => p ++ [(k, [i])]
  | some s => if lmem i s then p else aset p k (s ++ [i])

/-- The three fixed pack-type subdirectories (lines 336-337 and 372-373). -/
def sourceSubdirs : List String := ["packs/tar.bz2", "packs/tar.gz", "packs/zip"]

/-- Delta planner for build artifacts (lines 259-274): walk the local
inventory; ensure a manifest entry per package; an artifact is planned
unless it is already named in the manifest entry and force is false.
Returns the (mutated) working manifest and the push plan. -/
def computeBuildPlanGo (force : Bool) :
    List (String × List String) → BMan → PPlan → BMan × PPlan
  | [], m, p => (m, p)
  | (pkg, arts) :: t, m, p =>
    let m1 := ensureB m pkg
    let p1 := arts.foldl
      (fun pl art => if bHas m1 pkg art && !force then pl else planAdd pl pkg art) p
    computeBuildPlanGo force t m1 p1

def computeBuildPlan (inv : List (String × List String)) (man : BMan) (force : Bool) :
    BMan × PPlan :=
  computeBuildPlanGo force inv man []

/-- Delta planner for source packs (lines 370-385): same scheme over the
three fixed subdirectories, with the inventory given by listing each one. -/
def computeSourcePlanGo (sinv : String → List String) (force : Bool) :
    List String → SMan → PPlan → SMan × PPlan
  | [], m, p => (m, p)
  | subdir :: t, m, p =>
    let m1 := ensureS m subdir
    let p1 := (sinv subdir).foldl
      (fun pl pk => if sHas m1 subdir pk && !force then pl else planAdd pl subdir pk) p
    computeSourcePlanGo sinv force t m1 p1

def computeSourcePlan (sinv : String → List String) (man : SMan) (force : Bool) :
    SMan × PPlan :=
  computeSourcePlanGo sinv force sourceSubdirs man []

/-- Comma join used by the JSON rendering below. -/
def joinComma : List String → String
  | [] => ""
  | [x] => x
  | x :: y :: t => x ++ ", " ++ joinComma (y :: t)

def jstr (s : String) : String := "\"" ++ s ++ "\""

def serializeBEntry (e : List (String × String)) : String :=
  "\x7b" ++ joinComma (e.map (fun kv => jstr kv.1 ++ ": " ++ jstr kv.2)) ++ "\x7d"

/-- Rendering of the build manifest, modelling `json.dumps(manifest)`
(line 302); the exact byte format is irrelevant to the claims, which only
use that one rendering of the whole in-memory manifest is produced. -/
def serializeB (m : BMan) : String :=
  "\x7b" ++ joinComma (m.map (fun kv => jstr kv.1 ++ ": " ++ serializeBEntry kv.2)) ++ "\x7d"

def serializeSEntry (l : List String) : String :=
  "[" ++ joinComma (l.map jstr) ++ "]"

/-- Rendering of the source manifest, modelling `json.dumps(manifest)` (line 403). -/
def serializeS (m : SMan) : String :=
  "\x7b" ++ joinComma (m.map (fun kv => jstr kv.1 ++ ": " ++ serializeSEntry kv.2)) ++ "\x7d"

def splitSlashAux : List Char → List Char → List (List Char)
  | [], cur => [cur.reverse]
  | c :: t, cur => if c = '/' then cur.reverse :: splitSlashAux t [] else splitSlashAux t (c :: cur)

/-- Modelled from the spec: the storage collaborator (external pcs_api
CPath, not part of this repository) addresses blobs by a hierarchical
path; a path string is normalized to its nonempty slash-separated
components, so a trailing slash is not a component. -/
def cPath (s : String) : List String :=
  ((splitSlashAux s.data []).map (fun cs => String.mk cs)).filter (fun x => x != "")

/-- `CPath.add name`: extend the hierarchical path by a component. -/
def cAdd (p : List String) (n : String) : List String := p ++ cPath n

/-- Observable side effects of one run, in program order. -/
inductive Effect
  | downloadManifest (p : List String)
  | readLocalManifest (file : String)
  | writeLocalManifest (file : String)
  | createFolder (p : List String)
  | uploadBlob (p : List String)
  | uploadManifest (p : List String)
  | removeFile (f : String)

def Effect.isRemote : Effect → Bool
  | .downloadManifest _ => true
  | .createFolder _ => true
  | .uploadBlob _ => true
  | .uploadManifest _ => true
  | _ => false

/-- State threaded through a push run over a manifest type μ: the
in-memory manifest, the value/bytes last written to the local manifest
cache, the value/bytes last uploaded to the remote manifest blob, and
the effect log. -/
structure RunState (μ : Type) where
  manifest : μ
  localVal : Option μ
  localBytes : Option String
  remoteVal : Option μ
  remoteBytes : Option String
  log : List Effect

/-- One successful build-artifact push (lines 276-316): tar the artifact
directory, hash it and record `manifest[pkg][art] = digest`, create the
remote folder, upload the tarball, remove it locally, then serialize the
whole manifest once and upload the bytes to /bld/build_manifest.json and
write the same bytes to the local cache. `dg` is the content-digest
oracle (sha1 of the produced tarball). -/
def pushBuildItem (dg : String → String → String) (st : RunState BMan)
    (it : String × String) : RunState BMan :=
  let m := bset st.manifest it.1 it.2 (dg it.1 it.2)
  let s := serializeB m
  RunState.mk m (some m) (some s) (some m) (some s)
    (st.log ++ [Effect.createFolder (cPath ("/bld/" ++ it.1)),
                Effect.uploadBlob (cAdd (cPath ("/bld/" ++ it.1)) (it.2 ++ ".tar.gz")),
                Effect.removeFile (it.1 ++ "/" ++ it.2 ++ ".tar.gz"),
                Effect.uploadManifest (cAdd (cPath "/bld/") "build_manifest.json"),
                Effect.writeLocalManifest "build_manifest.json"])

def pushBuildLoop (dg : String → String → String) (items : List (String × String))
    (st : RunState BMan) : RunState BMan :=
  items.foldl (pushBuildItem dg) st

/-- Failure modes of one planned item: `tar czf` fails (line 283) before
anything is recorded, or the blob upload fails (line 299) after the
in-memory record and folder creation but before the manifest persist. -/
inductive ItemFail
  | packFail
  | uploadFail

/-- One build item with a possible failure; an uncaught exception
surfaces as `Except.error` carrying the state at the raise point. -/
def pushBuildItemE (dg : String → String → String) (st : RunState BMan)
    (it : String × String) : Option ItemFail → Except (RunState BMan) (RunState BMan)
  | none => Except.ok (pushBuildItem dg st it)
  | some ItemFail.packFail => Except.error st
  | some ItemFail.uploadFail =>
      Except.error (RunState.mk (bset st.manifest it.1 it.2 (dg it.1 it.2))
        st.localVal st.localBytes st.remoteVal st.remoteBytes
        (st.log ++ [Effect.createFolder (cPath ("/bld/" ++ it.1))]))

/-- The push loop with failures: the first raising item aborts the run
(nothing after it is processed), as the loop body is not inside a try. -/
def pushBuildLoopE (dg : String → String → String) :
    List ((String × String) × Option ItemFail) → RunState BMan →
    Except (RunState BMan) (RunState BMan)
  | [], st => Except.ok st
  | (it, f) :: t, st =>
    match pushBuildItemE dg st it f with
    | Except.error e => Except.error e
    | Except.ok st' => pushBuildLoopE dg t st'

/-- Lines 239-257: attempt to download /bld/build_manifest.json; `fetch`
is its parsed content, `none` when the download or parse raised, in
which case the working manifest is {}; either way the fetched manifest
is then serialized and written over the local cache copy. -/
def buildInit (fetch : Option BMan) (st0 : RunState BMan) : RunState BMan :=
  let m := fetch.getD []
  RunState.mk m (some m) (some (serializeB m)) st0.remoteVal st0.remoteBytes
    (st0.log ++ [Effect.downloadManifest (cAdd (cPath "/bld/") "build_manifest.json"),
                 Effect.writeLocalManifest "build_manifest.json"])

/-- A full (non-dry-run) build push (lines 239-316): init, plan, then
push `items`, the enumeration of the plan's pairs in iteration order
(Python dict/set order is arbitrary, so it is a parameter; theorems
relate it to the computed plan). -/
def buildRun (dg : String → String → String) (fetch : Option BMan)
    (inv : List (String × List String)) (force : Bool)
    (items : List (String × String)) (st0 : RunState BMan) : RunState BMan :=
  let st1 := buildInit fetch st0
  let mp := computeBuildPlan inv st1.manifest force
  pushBuildLoop dg items
    (RunState.mk mp.1 st1.localVal st1.localBytes st1.remoteVal st1.remoteBytes st1.log)

/-- One successful source-pack push (lines 387-417): append the pack name
to its manifest list, create the remote folder, upload the pack file
verbatim, then serialize the whole manifest once and upload the bytes to
/src/source_manifest.json (the code writes CPath('/src') here) and write
the same bytes to the local cache. Nothing is removed locally. -/
def pushSourceItem (st : RunState SMan) (it : String × String) : RunState SMan :=
  let m := sappend st.manifest it.1 it.2
  let s := serializeS m
  RunState.mk m (some m) (some s) (some m) (some s)
    (st.log ++ [Effect.createFolder (cPath ("/src/" ++ it.1)),
                Effect.uploadBlob (cAdd (cPath ("/src/" ++ it.1)) it.2),
                Effect.uploadManifest (cAdd (cPath "/src") "source_manifest.json"),
                Effect.writeLocalManifest "source_manifest.json"])

def pushSourceLoop (items : List (String × String)) (st : RunState SMan) : RunState SMan :=
  items.foldl pushSourceItem st

/-- Lines 351-369: fetch /src/source_manifest.json (empty on any
failure) and overwrite the local cache copy with it. -/
def sourceInit (fetch : Option SMan) (st0 : RunState SMan) : RunState SMan :=
  let m := fetch.getD []
  RunState.mk m (some m) (some (serializeS m)) st0.remoteVal st0.remoteBytes
    (st0.log ++ [Effect.downloadManifest (cAdd (cPath "/src/") "source_manifest.json"),
                 Effect.writeLocalManifest "source_manifest.json"])

/-- A full (non-dry-run) source push (lines 351-417). -/
def sourceRun (fetch : Option SMan) (sinv : String → List String) (force : Bool)
    (items : List (String × String)) (st0 : RunState SMan) : RunState SMan :=
  let st1 := sourceInit fetch st0
  let mp := computeSourcePlan sinv st1.manifest force
  pushSourceLoop items
    (RunState.mk mp.1 st1.localVal st1.localBytes st1.remoteVal st1.remoteBytes st1.log)

/-- Dry-run comparison for build artifacts (lines 224-234): one pass over
the inventory accumulating the "Skipping" and "Pushing" line buffers. -/
def buildDryItemGo (lm : BMan) (k : String) (arts : List String)
    (sp : String × String) : String × String :=
  arts.foldl
    (fun sp a =>
      if bHas lm k a then (sp.1 ++ (k ++ "/" ++ a ++ " Skipping\n"), sp.2)
      else (sp.1, sp.2 ++ (k ++ "/" ++ a ++ " Pushing\n"))) sp

def buildDryGo (lm : BMan) (inv : List (String × List String))
    (sp : String × String) : String × String :=
  inv.foldl (fun sp kv => buildDryItemGo lm kv.1 kv.2 sp) sp

def buildDryLists (inv : List (String × List String)) (lm : BMan) : String × String :=
  buildDryGo lm inv ("", "")

def hintBuild : String := "Use --force to push all artifacts\n"

/-- Lines 235-237: the skip buffer, then the fixed hint, then the push buffer. -/
def buildDryOutput (inv : List (String × List String)) (lm : BMan) : String :=
  (buildDryLists inv lm).1 ++ hintBuild ++ (buildDryLists inv lm).2

/-- Dry-run comparison for source packs (lines 334-346). -/
def sourceDryItemGo (lm : SMan) (k : String) (packs : List String)
    (sp : String × String) : String × String :=
  packs.foldl
    (fun sp a =>
      if sHas lm k a then (sp.1 ++ (k ++ "/" ++ a ++ " Skipping\n"), sp.2)
      else (sp.1, sp.2 ++ (k ++ "/" ++ a ++ " Pushing\n"))) sp

def sourceDryGo (lm : SMan) (subs : List String) (sinv : String → List String)
    (sp : String × String) : String × String :=
  subs.foldl (fun sp subdir => sourceDryItemGo lm subdir (sinv subdir) sp) sp

def sourceDryLists (sinv : String → List String) (lm : SMan) : String × String :=
  sourceDryGo lm sourceSubdirs sinv ("", "")

def hintSource : String := "Use --force to push skipped source packs\n"

/-- Lines 347-349: skip buffer, fixed hint, push buffer. -/
def sourceDryOutput (sinv : String → List String) (lm : SMan) : String :=
  (sourceDryLists sinv lm).1 ++ hintSource ++ (sourceDryLists sinv lm).2

/-- The parsed command-line flags of `hit push` (lines 138-147). -/
structure Args where
  dry_run : Bool
  force : Bool
  objects : String
  name : String

/-- Local state the command reads: the two inventories and the two local
manifest cache files (`none` models an unreadable/corrupt cache file,
which falls back to an empty manifest with a warning, lines 213-220 and
322-330). -/
structure Env where
  buildInv : List (String × List String)
  buildLocalMan : Option BMan
  sourceInv : String → List String
  sourceLocalMan : Option SMan

inductive RunErr
  /-- Line 173 evaluates `arg.name`, but only `args` is in scope, so a
  NameError is raised during storage setup. -/
  | nameErrorArg

structure CommandResult where
  error : Option RunErr
  output : String
  effects : List Effect

/-- Top-level control flow of Push.run (lines 150-349, dry-run part).
With dry_run false, line 171's block runs and line 173 references the
undefined name `arg` before any manifest is read or written, raising
NameError; with dry_run true that block is skipped and the selected
object classes are compared read-only against the local cache copies. -/
def pushCommand (env : Env) (args : Args) : CommandResult :=
  if args.dry_run = false then CommandResult.mk (some RunErr.nameErrorArg) "" []
  else
    let bPart : String × List Effect :=
      if args.objects = "build" ∨ args.objects = "build_and_source" then
        (buildDryOutput env.buildInv ((env.buildLocalMan).getD []),
         [Effect.readLocalManifest "build_manifest.json"])
      else ("", [])
    let sPart : String × List Effect :=
      if args.objects = "source" ∨ args.objects = "build_and_source" then
        (sourceDryOutput env.sourceInv ((env.sourceLocalMan).getD []),
         [Effect.readLocalManifest "source_manifest.json"])
      else ("", [])
    CommandResult.mk none (bPart.1 ++ sPart.1) (bPart.2 ++ sPart.2)

theorem entryHas_aset (e : List (String × String)) (a d a' : String) :
    entryHas (aset e a d) a' = true ↔ a = a' ∨ entryHas e a' = true := by
  unfold entryHas
  rw [alookup_aset]
  by_cases h : a = a' <;> simp [h]

theorem bHas_ensure (m : BMan) (k k' a : String) :
    bHas (ensureB m k) k' a = bHas m k' a := by
  by_cases h : amem m k = true
  · simp [ensureB, h]
  · simp only [ensureB, h, if_false, Bool.false_eq_true]
    unfold bHas
    rw [alookup_append_single]
    cases hl : alookup m k' with
    | some e => rfl
    | none =>
        by_cases hk : k = k'
        · simp [hk, entryHas, alookup]
        · simp [hk]

theorem bHas_bset (m : BMan) (k a d k' a' : String) :
    bHas (bset m k a d) k' a' = true ↔ bHas m k' a' = true ∨ (k = k' ∧ a = a') := by
  unfold bset bHas
  rw [alookup_aset]
  by_cases hk : k = k'
  · subst hk
    rw [if_pos rfl]
    rw [entryHas_aset]
    cases hl : alookup m k with
    | none => simp [entryHas, alookup]
    | some e => simp; tauto
  · simp [hk]

theorem sHas_ensure (m : SMan) (k k' a : String) :
    sHas (ensureS m k) k' a = sHas m k' a := by
  by_cases h : amem m k = true
  · simp [ensureS, h]
  · simp only [ensureS, h, if_false, Bool.false_eq_true]
    unfold sHas
    rw [alookup_append_single]
    cases hl : alookup m k' with
    | some e => rfl
    | none =>
        by_cases hk : k = k'
        · simp [hk, lmem]
        · simp [hk]

theorem sHas_sappend (m : SMan) (k i k' i' : String) :
    sHas (sappend m k i) k' i' = true ↔ sHas m k' i' = true ∨ (k = k' ∧ i = i') := by
  unfold sappend sHas
  rw [alookup_aset]
  by_cases hk : k = k'
  · subst hk
    rw [if_pos rfl]
    rw [lmem_append_one]
    cases hl : alookup m k with
    | none => simp [lmem]
    | some l => simp
  · simp [hk]

theorem planAdd_has (p : PPlan) (k i k' i' : String) :
    planHas (planAdd p k i) k' i' = true ↔ planHas p k' i' = true ∨ (k = k' ∧ i = i') := by
  unfold planAdd
  cases hp : alookup p k with
  | none =>
      unfold planHas
      rw [alookup_append_single]
      cases hq : alookup p k' with
      | some s =>
          constructor
          · exact Or.inl
          · rintro (h | ⟨hk, hi⟩)
            · exact h
            · subst hk; rw [hp] at hq; cases hq
      | none =>
          by_cases hk : k = k'
          · subst hk
            simp [lmem]
          · simp [hk]
  | some s =>
      dsimp only
      by_cases hm : lmem i s = true
      · rw [if_pos hm]
        constructor
        · exact Or.inl
        · rintro (h | ⟨hk, hi⟩)
          · exact h
          · subst hk; subst hi
            unfold planHas
            rw [hp]
            exact hm
      · rw [if_neg hm]
        unfold planHas
        rw [alookup_aset]
        by_cases hk : k = k'
        · subst hk
          rw [if_pos rfl, hp, lmem_append_one]
          tauto
        · simp [hk]

theorem foldl_planAdd_has (k : String) (cond : String → Bool) :
    ∀ (arts : List String) (p : PPlan) (k' i' : String),
    planHas (List.foldl (fun pl a => if cond a then pl else planAdd pl k a) p arts) k' i' = true
    ↔ planHas p k' i' = true ∨ (k = k' ∧ i' ∈ arts ∧ cond i' = false) := by
  intro arts
  induction arts with
  | nil => intro p k' i'; simp
  | cons a t ih =>
      intro p k' i'
      rw [List.foldl_cons, ih]
      cases hc : cond a with
      | true =>
          rw [if_pos rfl]
          constructor
          · rintro (h | ⟨hk, hm, hcc⟩)
            · exact Or.inl h
            · exact Or.inr ⟨hk, List.mem_cons_of_mem _ hm, hcc⟩
          · rintro (h | ⟨hk, hm, hcc⟩)
            · exact Or.inl h
            · rcases List.mem_cons.mp hm with h1 | h1
              · subst h1; rw [hc] at hcc; cases hcc
              · exact Or.inr ⟨hk, h1, hcc⟩
      | false =>
          rw [if_neg (by simp)]
          rw [planAdd_has]
          constructor
          · rintro ((h | ⟨hk, hi⟩) | ⟨hk, hm, hcc⟩)
            · exact Or.inl h
            · subst hi
              exact Or.inr ⟨hk, List.mem_cons_self a t, hc⟩
            · exact Or.inr ⟨hk, List.mem_cons_of_mem _ hm, hcc⟩
          · rintro (h | ⟨hk, hm, hcc⟩)
            · exact Or.inl (Or.inl h)
            · rcases List.mem_cons.mp hm with h1 | h1
              · exact Or.inl (Or.inr ⟨hk, h1.symm⟩)
              · exact Or.inr ⟨hk, h1, hcc⟩

theorem foldl_planAdd_id (k : String) (cond : String → Bool) :
    ∀ (arts : List String) (p : PPlan),
    (∀ a ∈ arts, cond a = true) →
    List.foldl (fun pl a => if cond a then pl else planAdd pl k a) p arts = p := by
  intro arts
  induction arts with
  | nil => intro p _; rfl
  | cons a t ih =>
      intro p h
      rw [List.foldl_cons, if_pos (h a (List.mem_cons_self a t))]
      exact ih p (fun x hx => h x (List.mem_cons_of_mem _ hx))

theorem computeBuildPlanGo_fst (force : Bool) :
    ∀ (inv : List (String × List String)) (m : BMan) (p : PPlan) (k a : String),
    bHas (computeBuildPlanGo force inv m p).1 k a = bHas m k a := by
  intro inv
  induction inv with
  | nil => intro m p k a; rfl
  | cons kv t ih =>
      intro m p k a
      obtain ⟨pkg, arts⟩ := kv
      simp only [computeBuildPlanGo]
      rw [ih, bHas_ensure]

theorem computeBuildPlanGo_snd (force : Bool) :
    ∀ (inv : List (String × List String)) (m : BMan) (p : PPlan) (k a : String),
    planHas (computeBuildPlanGo force inv m p).2 k a = true
    ↔ planHas p k a = true
      ∨ ∃ arts, (k, arts) ∈ inv ∧ a ∈ arts ∧ (bHas m k a && !force) = false := by
  intro inv
  induction inv with
  | nil => intro m p k a; simp [computeBuildPlanGo]
  | cons kv t ih =>
      intro m p k a
      obtain ⟨pkg, arts⟩ := kv
      simp only [computeBuildPlanGo]
      rw [ih, foldl_planAdd_has]
      simp only [bHas_ensure]
      constructor
      · rintro ((h | ⟨hk, hm, hc⟩) | ⟨arts', hmem, hm, hc⟩)
        · exact Or.inl h
        · subst hk
          exact Or.inr ⟨arts, List.mem_cons_self _ _, hm, hc⟩
        · exact Or.inr ⟨arts', List.mem_cons_of_mem _ hmem, hm, hc⟩
      · rintro (h | ⟨arts', hmem, hm, hc⟩)
        · exact Or.inl (Or.inl h)
        · rcases List.mem_cons.mp hmem with h1 | h1
          · have hk : k = pkg := congrArg Prod.fst h1
            have ha : arts' = arts := congrArg Prod.snd h1
            subst hk
            subst ha
            exact Or.inl (Or.inr ⟨rfl, hm, hc⟩)
          · exact Or.inr ⟨arts', h1, hm, hc⟩

theorem computeBuildPlanGo_snd_id (force : Bool) :
    ∀ (inv : List (String × List String)) (m : BMan) (p : PPlan),
    (∀ kv ∈ inv, ∀ a ∈ kv.2, (bHas m kv.1 a && !force) = true) →
    (computeBuildPlanGo force inv m p).2 = p := by
  intro inv
  induction inv with
  | nil => intro m p _; rfl
  | cons kv t ih =>
      intro m p h
      obtain ⟨pkg, arts⟩ := kv
      simp only [computeBuildPlanGo]
      rw [foldl_planAdd_id]
      · exact ih (ensureB m pkg) p
          (fun kv hkv a ha => by rw [bHas_ensure]; exact h kv (List.mem_cons_of_mem _ hkv) a ha)
      · intro a ha
        rw [bHas_ensure]
        exact h (pkg, arts) (List.mem_cons_self _ _) a ha

theorem computeBuildPlanGo_snd_congr (force : Bool) :
    ∀ (inv : List (String × List String)) (m1 m2 : BMan) (p : PPlan),
    (∀ k a, bHas m1 k a = bHas m2 k a) →
    (computeBuildPlanGo force inv m1 p).2 = (computeBuildPlanGo force inv m2 p).2 := by
  intro inv
  induction inv with
  | nil => intro m1 m2 p _; rfl
  | cons kv t ih =>
      intro m1 m2 p h
      obtain ⟨pkg, arts⟩ := kv
      simp only [computeBuildPlanGo]
      have hfun :
          (fun pl art => if bHas (ensureB m1 pkg) pkg art && !force then pl else planAdd pl pkg art)
            = (fun pl art => if bHas (ensureB m2 pkg) pkg art && !force then pl
                else planAdd pl pkg art) := by
        funext pl art
        rw [bHas_ensure, bHas_ensure, h]
      rw [hfun]
      exact ih (ensureB m1 pkg) (ensureB m2 pkg) _ (fun k a => by rw [bHas_ensure, bHas_ensure, h])

theorem computeSourcePlanGo_snd (sinv : String → List String) (force : Bool) :
    ∀ (subs : List String) (m : SMan) (p : PPlan) (k a : String),
    planHas (computeSourcePlanGo sinv force subs m p).2 k a = true
    ↔ planHas p k a = true
      ∨ (k ∈ subs ∧ a ∈ sinv k ∧ (sHas m k a && !force) = false) := by
  intro subs
  induction subs with
  | nil => intro m p k a; simp [computeSourcePlanGo]
  | cons subdir t ih =>
      intro m p k a
      simp only [computeSourcePlanGo]
      rw [ih, foldl_planAdd_has]
      simp only [sHas_ensure]
      constructor
      · rintro ((h | ⟨hk, hm, hc⟩) | ⟨hmem, hm, hc⟩)
        · exact Or.inl h
        · subst hk
          exact Or.inr ⟨List.mem_cons_self _ _, hm, hc⟩
        · exact Or.inr ⟨List.mem_cons_of_mem _ hmem, hm, hc⟩
      · rintro (h | ⟨hmem, hm, hc⟩)
        · exact Or.inl (Or.inl h)
        · rcases List.mem_cons.mp hmem with h1 | h1
          · subst h1
            exact Or.inl (Or.inr ⟨rfl, hm, hc⟩)
          · exact Or.inr ⟨h1, hm, hc⟩

theorem pushBuildItem_manifest (dg : String → String → String) (st : RunState BMan)
    (it : String × String) :
    (pushBuildItem dg st it).manifest = bset st.manifest it.1 it.2 (dg it.1 it.2) := rfl

theorem pushSourceItem_manifest (st : RunState SMan) (it : String × String) :
    (pushSourceItem st it).manifest = sappend st.manifest it.1 it.2 := rfl

/-- The persisted copies are in sync with the in-memory manifest. -/
def SyncedB (st : RunState BMan) : Prop :=
  st.remoteBytes = st.localBytes ∧ st.localBytes = some (serializeB st.manifest)
  ∧ st.localVal = some st.manifest ∧ st.remoteVal = some st.manifest

def SyncedS (st : RunState SMan) : Prop :=
  st.remoteBytes = st.localBytes ∧ st.localBytes = some (serializeS st.manifest)
  ∧ st.localVal = some st.manifest ∧ st.remoteVal = some st.manifest

theorem bHas_pushBuildLoop (dg : String → String → String) :
    ∀ (items : List (String × String)) (st : RunState BMan) (k a : String),
    bHas (pushBuildLoop dg items st).manifest k a = true
    ↔ bHas st.manifest k a = true ∨ (k, a) ∈ items := by
  intro items
  induction items with
  | nil => intro st k a; simp [pushBuildLoop]
  | cons it t ih =>
      intro st k a
      simp only [pushBuildLoop, List.foldl_cons] at ih ⊢
      rw [ih, pushBuildItem_manifest, bHas_bset]
      constructor
      · rintro ((h | ⟨hk, ha⟩) | h)
        · exact Or.inl h
        · exact Or.inr (by rw [← hk, ← ha]; exact List.mem_cons_self _ _)
        · exact Or.inr (List.mem_cons_of_mem _ h)
      · rintro (h | h)
        · exact Or.inl (Or.inl h)
        · rcases List.mem_cons.mp h with h1 | h1
          · exact Or.inl (Or.inr ⟨congrArg Prod.fst h1.symm, congrArg Prod.snd h1.symm⟩)
          · exact Or.inr h1

theorem sHas_pushSourceLoop :
    ∀ (items : List (String × String)) (st : RunState SMan) (k a : String),
    sHas (pushSourceLoop items st).manifest k a = true
    ↔ sHas st.manifest k a = true ∨ (k, a) ∈ items := by
  intro items
  induction items with
  | nil => intro st k a; simp [pushSourceLoop]
  | cons it t ih =>
      intro st k a
      simp only [pushSourceLoop, List.foldl_cons] at ih ⊢
      rw [ih, pushSourceItem_manifest, sHas_sappend]
      constructor
      · rintro ((h | ⟨hk, ha⟩) | h)
        · exact Or.inl h
        · exact Or.inr (by rw [← hk, ← ha]; exact List.mem_cons_self _ _)
        · exact Or.inr (List.mem_cons_of_mem _ h)
      · rintro (h | h)
        · exact Or.inl (Or.inl h)
        · rcases List.mem_cons.mp h with h1 | h1
          · exact Or.inl (Or.inr ⟨congrArg Prod.fst h1.symm, congrArg Prod.snd h1.symm⟩)
          · exact Or.inr h1

theorem pushBuildLoop_synced (dg : String → String → String) :
    ∀ (items : List (String × String)) (st : RunState BMan),
    items ≠ [] → SyncedB (pushBuildLoop dg items st) := by
  intro items
  induction items with
  | nil => intro st h; cases h rfl
  | cons it t ih =>
      intro st _
      cases t with
      | nil =>
          exact ⟨rfl, rfl, rfl, rfl⟩
      | cons it2 t2 =>
          simp only [pushBuildLoop, List.foldl_cons] at ih ⊢
          exact ih (pushBuildItem dg st it) (by simp)

theorem pushSourceLoop_synced :
    ∀ (items : List (String × String)) (st : RunState SMan),
    items ≠ [] → SyncedS (pushSourceLoop items st) := by
  intro items
  induction items with
  | nil => intro st h; cases h rfl
  | cons it t ih =>
      intro st _
      cases t with
      | nil =>
          exact ⟨rfl, rfl, rfl, rfl⟩
      | cons it2 t2 =>
          simp only [pushSourceLoop, List.foldl_cons] at ih ⊢
          exact ih (pushSourceItem st it) (by simp)

/-- The hierarchical paths at which a manifest blob is downloaded from or
uploaded to remote storage, in log order. -/
def manifestPathsOf (log : List Effect) : List (List String) :=
  log.filterMap (fun e =>
    match e with
    | Effect.downloadManifest p => some p
    | Effect.uploadManifest p => some p
    | _ => none)

theorem manifestPathsOf_append (l1 l2 : List Effect) :
    manifestPathsOf (l1 ++ l2) = manifestPathsOf l1 ++ manifestPathsOf l2 :=
  List.filterMap_append l1 l2 _

theorem bldManifestPath_eval :
    cAdd (cPath "/bld/") "build_manifest.json" = ["bld", "build_manifest.json"] := by decide

theorem srcManifestPath_up_eval :
    cAdd (cPath "/src") "source_manifest.json" = ["src", "source_manifest.json"] := by decide

theorem srcManifestPath_down_eval :
    cAdd (cPath "/src/") "source_manifest.json" = ["src", "source_manifest.json"] := by decide

theorem pushBuildLoop_paths (dg : String → String → String) :
    ∀ (items : List (String × String)) (st : RunState BMan),
    manifestPathsOf (pushBuildLoop dg items st).log
      = manifestPathsOf st.log
        ++ List.replicate items.length (cAdd (cPath "/bld/") "build_manifest.json") := by
  intro items
  induction items with
  | nil => intro st; simp [pushBuildLoop]
  | cons it t ih =>
      intro st
      simp only [pushBuildLoop, List.foldl_cons] at ih ⊢
      rw [ih]
      have hlog : (pushBuildItem dg st it).log
          = st.log ++ [Effect.createFolder (cPath ("/bld/" ++ it.1)),
                       Effect.uploadBlob (cAdd (cPath ("/bld/" ++ it.1)) (it.2 ++ ".tar.gz")),
                       Effect.removeFile (it.1 ++ "/" ++ it.2 ++ ".tar.gz"),
                       Effect.uploadManifest (cAdd (cPath "/bld/") "build_manifest.json"),
                       Effect.writeLocalManifest "build_manifest.json"] := rfl
      rw [hlog, manifestPathsOf_append]
      simp [manifestPathsOf, List.replicate_succ, List.length_cons]

theorem pushSourceLoop_paths :
    ∀ (items : List (String × String)) (st : RunState SMan),
    manifestPathsOf (pushSourceLoop items st).log
      = manifestPathsOf st.log
        ++ List.replicate items.length (cAdd (cPath "/src") "source_manifest.json") := by
  intro items
  induction items with
  | nil => intro st; simp [pushSourceLoop]
  | cons it t ih =>
      intro st
      simp only [pushSourceLoop, List.foldl_cons] at ih ⊢
      rw [ih]
      have hlog : (pushSourceItem st it).log
          = st.log ++ [Effect.createFolder (cPath ("/src/" ++ it.1)),
                       Effect.uploadBlob (cAdd (cPath ("/src/" ++ it.1)) it.2),
                       Effect.uploadManifest (cAdd (cPath "/src") "source_manifest.json"),
                       Effect.writeLocalManifest "source_manifest.json"] := rfl
      rw [hlog, manifestPathsOf_append]
      simp [manifestPathsOf, List.replicate_succ, List.length_cons]

theorem pushBuildLoopE_ok_front (dg : String → String → String) :
    ∀ (pre : List (String × String)) (rest : List ((String × String) × Option ItemFail))
      (st : RunState BMan),
    pushBuildLoopE dg (pre.map (fun p => (p, none)) ++ rest) st
      = pushBuildLoopE dg rest (pushBuildLoop dg pre st) := by
  intro pre
  induction pre with
  | nil => intro rest st; simp [pushBuildLoop]
  | cons it t ih =>
      intro rest st
      simp only [List.map_cons, List.cons_append, pushBuildLoopE, pushBuildItemE, List.append_eq]
      rw [ih]
      simp [pushBuildLoop, List.foldl_cons]

theorem buildRun_eq (dg : String → String → String) (fetch : Option BMan)
    (inv : List (String × List String)) (force : Bool)
    (items : List (String × String)) (st0 : RunState BMan) :
    buildRun dg fetch inv force items st0
      = pushBuildLoop dg items
          (RunState.mk (computeBuildPlan inv (fetch.getD []) force).1
            (some (fetch.getD [])) (some (serializeB (fetch.getD [])))
            st0.remoteVal st0.remoteBytes
            (st0.log ++ [Effect.downloadManifest (cAdd (cPath "/bld/") "build_manifest.json"),
                         Effect.writeLocalManifest "build_manifest.json"])) := rfl

theorem sourceRun_eq (fetch : Option SMan) (sinv : String → List String) (force : Bool)
    (items : List (String × String)) (st0 : RunState SMan) :
    sourceRun fetch sinv force items st0
      = pushSourceLoop items
          (RunState.mk (computeSourcePlan sinv (fetch.getD []) force).1
            (some (fetch.getD [])) (some (serializeS (fetch.getD [])))
            st0.remoteVal st0.remoteBytes
            (st0.log ++ [Effect.downloadManifest (cAdd (cPath "/src/") "source_manifest.json"),
                         Effect.writeLocalManifest "source_manifest.json"])) := rfl

/-- Name presence inside an optional persisted build manifest. -/
def optBHas (o : Option BMan) (k a : String) : Bool :=
  match o with
  | none => false
  | some m => bHas m k a

/-- Fixed digest oracle used for concrete instantiations. -/
def wDg : String → String → String := fun _ _ => "d0"

/-- Pristine initial run states used for concrete instantiations. -/
def wSt0B : RunState BMan := RunState.mk [] none none none none []

def wSt0S : RunState SMan := RunState.mk [] none none none none []

/-- Scenario A fixtures: inventory pkgA/[art1, art2], manifest pkgA/art1. -/
def wInvA : List (String × List String) := [("pkgA", ["art1", "art2"])]

def wManA : BMan := [("pkgA", [("art1", "deadbeef")])]

/-- Claim C1: plan membership rule — for every collection key in the local
inventory and every item under that key, the item is included in the push
plan iff it is not already named in the manifest entry for that key or
force is true (build artifacts and source packs alike); plan membership
depends on the manifest only through name presence, never through the
stored digest values. -/
theorem plan_membership_name_presence :
    (∀ (inv : List (String × List String)) (man : BMan) (force : Bool)
       (k : String) (arts : List String) (a : String),
       (k, arts) ∈ inv → a ∈ arts →
       (planHas (computeBuildPlan inv man force).2 k a = true
         ↔ (bHas man k a = false ∨ force = true)))
    ∧ (∀ (sinv : String → List String) (sman : SMan) (force : Bool) (k a : String),
       k ∈ sourceSubdirs → a ∈ sinv k →
       (planHas (computeSourcePlan sinv sman force).2 k a = true
         ↔ (sHas sman k a = false ∨ force = true)))
    ∧ (∀ (inv : List (String × List String)) (m1 m2 : BMan) (force : Bool),
       (∀ k a, bHas m1 k a = bHas m2 k a) →
       (computeBuildPlan inv m1 force).2 = (computeBuildPlan inv m2 force).2) := by
  refine ⟨?_, ?_, ?_⟩
  · intro inv man force k arts a hmem ha
    rw [computeBuildPlan, computeBuildPlanGo_snd]
    constructor
    · rintro (h | ⟨arts', _, _, hc⟩)
      · exact absurd h (by simp [planHas, alookup])
      · cases hb : bHas man k a <;> cases hf : force <;> simp_all
    · intro h
      refine Or.inr ⟨arts, hmem, ha, ?_⟩
      cases hb : bHas man k a <;> cases hf : force <;> simp_all
  · intro sinv sman force k a hmem ha
    rw [computeSourcePlan, computeSourcePlanGo_snd]
    constructor
    · rintro (h | ⟨_, _, hc⟩)
      · exact absurd h (by simp [planHas, alookup])
      · cases hb : sHas sman k a <;> cases hf : force <;> simp_all
    · intro h
      refine Or.inr ⟨hmem, ha, ?_⟩
      cases hb : sHas sman k a <;> cases hf : force <;> simp_all
  · intro inv m1 m2 force h
    rw [computeBuildPlan, computeBuildPlan]
    exact computeBuildPlanGo_snd_congr force inv m1 m2 [] h

/-- Concrete instantiation of the claim C1 theorem (scenario A, art2). -/
theorem plan_membership_name_presence_witness :
    planHas (computeBuildPlan wInvA wManA false).2 "pkgA" "art2" = true
      ↔ (bHas wManA "pkgA" "art2" = false ∨ false = true) :=
  plan_membership_name_presence.1 wInvA wManA false "pkgA" ["art1", "art2"] "art2"
    (by decide) (by decide)

/-- Claim C3: idempotence — if a first build push run over inventory
`inv` with fetched manifest `f1` and force false completes successfully
for an enumeration `items` covering its computed plan, then a second run
with unchanged filesystem that fetches the first run's final (and, when
anything was pushed, persisted) manifest computes an empty push plan;
moreover, when the plan was nonempty, that final manifest is indeed what
the first run persisted remotely and locally. -/
theorem push_idempotence (dg : String → String → String) (f1 : BMan)
    (inv : List (String × List String)) (items : List (String × String))
    (st0 : RunState BMan)
    (hit : ∀ kv ∈ inv, ∀ a ∈ kv.2,
      planHas (computeBuildPlan inv f1 false).2 kv.1 a = true → (kv.1, a) ∈ items) :
    (computeBuildPlan inv (buildRun dg (some f1) inv false items st0).manifest false).2 = []
    ∧ (items ≠ [] →
        (buildRun dg (some f1) inv false items st0).remoteVal
          = some ((buildRun dg (some f1) inv false items st0).manifest)
        ∧ (buildRun dg (some f1) inv false items st0).localVal
          = some ((buildRun dg (some f1) inv false items st0).manifest)) := by
  constructor
  · rw [computeBuildPlan]
    apply computeBuildPlanGo_snd_id
    intro kv hkv a ha
    have hM : bHas (buildRun dg (some f1) inv false items st0).manifest kv.1 a = true := by
      rw [buildRun_eq]
      rw [bHas_pushBuildLoop]
      simp only [Option.getD_some]
      rw [computeBuildPlan, computeBuildPlanGo_fst]
      by_cases hb : bHas f1 kv.1 a = true
      · exact Or.inl hb
      · refine Or.inr (hit kv hkv a ha ?_)
        rw [computeBuildPlan, computeBuildPlanGo_snd]
        refine Or.inr ⟨kv.2, ?_, ha, ?_⟩
        · simpa using hkv
        · simp [Bool.eq_false_iff.mpr hb]
    simp [hM]
  · intro hne
    have hs := pushBuildLoop_synced dg items
      (RunState.mk (computeBuildPlan inv ((some f1 : Option BMan).getD []) false).1
        (some ((some f1 : Option BMan).getD []))
        (some (serializeB ((some f1 : Option BMan).getD [])))
        st0.remoteVal st0.remoteBytes
        (st0.log ++ [Effect.downloadManifest (cAdd (cPath "/bld/") "build_manifest.json"),
                     Effect.writeLocalManifest "build_manifest.json"])) hne
    rw [buildRun_eq]
    exact ⟨hs.2.2.2, hs.2.2.1⟩

/-- Concrete instantiation of the claim C3 theorem (scenario A then rerun). -/
theorem push_idempotence_witness :
    (computeBuildPlan wInvA
      (buildRun wDg (some wManA) wInvA false [("pkgA", "art2")] wSt0B).manifest false).2 = []
    ∧ ([("pkgA", "art2")] ≠ ([] : List (String × String)) →
        (buildRun wDg (some wManA) wInvA false [("pkgA", "art2")] wSt0B).remoteVal
          = some ((buildRun wDg (some wManA) wInvA false [("pkgA", "art2")] wSt0B).manifest)
        ∧ (buildRun wDg (some wManA) wInvA false [("pkgA", "art2")] wSt0B).localVal
          = some ((buildRun wDg (some wManA) wInvA false [("pkgA", "art2")] wSt0B).manifest)) :=
  push_idempotence wDg wManA wInvA [("pkgA", "art2")] wSt0B (by decide)

/-- Claim C5: crash resumability — if a run (fetch `f1`, force false) is
interrupted after persisting the manifest for the first `i` planned items
(the run executed exactly `items.take i`), then a subsequent run that
fetches the persisted manifest computes a plan that excludes every one of
those first `i` items and includes every remaining planned item. -/
theorem crash_resumability_plan (dg : String → String → String) (f1 : BMan)
    (inv : List (String × List String)) (items : List (String × String)) (i : Nat)
    (st0 : RunState BMan)
    (hnd : items.Nodup)
    (hit : ∀ p ∈ items, planHas (computeBuildPlan inv f1 false).2 p.1 p.2 = true) :
    (∀ p ∈ items.take i,
      planHas (computeBuildPlan inv
        (buildRun dg (some f1) inv false (items.take i) st0).manifest false).2 p.1 p.2
        = false)
    ∧ (∀ p ∈ items.drop i,
      planHas (computeBuildPlan inv
        (buildRun dg (some f1) inv false (items.take i) st0).manifest false).2 p.1 p.2
        = true) := by
  have hbm : ∀ k a,
      bHas (buildRun dg (some f1) inv false (items.take i) st0).manifest k a = true
      ↔ bHas f1 k a = true ∨ (k, a) ∈ items.take i := by
    intro k a
    rw [buildRun_eq, bHas_pushBuildLoop]
    simp only [Option.getD_some]
    rw [computeBuildPlan, computeBuildPlanGo_fst]
  have hchar1 : ∀ (p : String × String),
      planHas (computeBuildPlan inv f1 false).2 p.1 p.2 = true
      ↔ ∃ arts, (p.1, arts) ∈ inv ∧ p.2 ∈ arts ∧ (bHas f1 p.1 p.2 && !false) = false := by
    intro p
    rw [computeBuildPlan, computeBuildPlanGo_snd]
    simp [planHas, alookup]
  have hchar2 : ∀ (p : String × String),
      planHas (computeBuildPlan inv
        (buildRun dg (some f1) inv false (items.take i) st0).manifest false).2 p.1 p.2 = true
      ↔ ∃ arts, (p.1, arts) ∈ inv ∧ p.2 ∈ arts
          ∧ (bHas (buildRun dg (some f1) inv false (items.take i) st0).manifest p.1 p.2
              && !false) = false := by
    intro p
    rw [computeBuildPlan, computeBuildPlanGo_snd]
    simp [planHas, alookup]
  constructor
  · intro p hp
    cases hpl : planHas (computeBuildPlan inv
        (buildRun dg (some f1) inv false (items.take i) st0).manifest false).2 p.1 p.2 with
    | false => rfl
    | true =>
        exfalso
        obtain ⟨arts, _, _, hc⟩ := (hchar2 p).mp hpl
        have hMt : bHas (buildRun dg (some f1) inv false (items.take i) st0).manifest
            p.1 p.2 = true := (hbm p.1 p.2).mpr (Or.inr hp)
        rw [hMt] at hc
        simp at hc
  · intro p hp
    have hpi : p ∈ items := List.drop_subset i items hp
    obtain ⟨arts, hmemI, hin, hc1⟩ := (hchar1 p).mp (hit p hpi)
    have hf1 : bHas f1 p.1 p.2 = false := by
      cases h : bHas f1 p.1 p.2
      · rfl
      · rw [h] at hc1; simp at hc1
    have hnotin : (p.1, p.2) ∉ items.take i := by
      intro hcon
      have hsplit := List.take_append_drop i items
      rw [← hsplit] at hnd
      exact (List.nodup_append.mp hnd).2.2 hcon hp
    have hM : bHas (buildRun dg (some f1) inv false (items.take i) st0).manifest
        p.1 p.2 = false := by
      cases h : bHas (buildRun dg (some f1) inv false (items.take i) st0).manifest p.1 p.2
      · rfl
      · exfalso
        rcases (hbm p.1 p.2).mp h with h1 | h1
        · rw [hf1] at h1; cases h1
        · exact hnotin h1
    exact (hchar2 p).mpr ⟨arts, hmemI, hin, by simp [hM]⟩

/-- Concrete instantiation of the claim C5 theorem: two planned items,
crash after the first. -/
theorem crash_resumability_plan_witness :
    (∀ p ∈ [("pkgA", "art1"), ("pkgA", "art2")].take 1,
      planHas (computeBuildPlan wInvA
        (buildRun wDg (some ([] : BMan)) wInvA false
          ([("pkgA", "art1"), ("pkgA", "art2")].take 1) wSt0B).manifest false).2 p.1 p.2
        = false)
    ∧ (∀ p ∈ [("pkgA", "art1"), ("pkgA", "art2")].drop 1,
      planHas (computeBuildPlan wInvA
        (buildRun wDg (some ([] : BMan)) wInvA false
          ([("pkgA", "art1"), ("pkgA", "art2")].take 1) wSt0B).manifest false).2 p.1 p.2
        = true) :=
  crash_resumability_plan wDg [] wInvA [("pkgA", "art1"), ("pkgA", "art2")] 1 wSt0B
    (by decide) (by decide)

/-- Claim C2 as stated is false on the code: in a run whose remote
manifest fetch fails, the working manifest falls back to empty, the
local cache is immediately overwritten with it (line 256), and the
per-item persists rebuild both copies from the empty manifest, so a
previously recorded pair — here ("pkgA", "art1"), recorded in both the
local cache and the remote copy before the run — is absent from both
persisted copies after the run (whose plan, {pkgB: {artX}}, is honestly
the plan the code computes for this inventory). -/
theorem manifest_growth_counterexample :
    optBHas (RunState.mk ([] : BMan) (some wManA) none (some wManA) none []).localVal
        "pkgA" "art1" = true
    ∧ optBHas (RunState.mk ([] : BMan) (some wManA) none (some wManA) none []).remoteVal
        "pkgA" "art1" = true
    ∧ planHas (computeBuildPlan [("pkgB", ["artX"])] [] false).2 "pkgB" "artX" = true
    ∧ optBHas (buildRun wDg none [("pkgB", ["artX"])] false [("pkgB", "artX")]
        (RunState.mk ([] : BMan) (some wManA) none (some wManA) none [])).localVal
        "pkgA" "art1" = false
    ∧ optBHas (buildRun wDg none [("pkgB", ["artX"])] false [("pkgB", "artX")]
        (RunState.mk ([] : BMan) (some wManA) none (some wManA) none [])).remoteVal
        "pkgA" "art1" = false := by
  decide

/-- Claim C2 amended: monotonic growth holds relative to the fetched
remote manifest — when the remote fetch succeeds and returns the
manifest `f` currently held remotely, every (key, item) pair named in
`f` is still named in both persisted copies after the run; within the
push loop pairs are only added, never removed. (When the fetch fails,
the local cache is overwritten with the empty manifest and previously
recorded pairs not re-pushed are dropped from both copies.) -/
theorem manifest_growth_from_fetched (dg : String → String → String) (f : BMan)
    (inv : List (String × List String)) (force : Bool)
    (items : List (String × String)) (st0 : RunState BMan)
    (hrem : st0.remoteVal = some f) :
    ∀ k a, bHas f k a = true →
      optBHas (buildRun dg (some f) inv force items st0).localVal k a = true
      ∧ optBHas (buildRun dg (some f) inv force items st0).remoteVal k a = true := by
  intro k a hf
  cases hitems : items with
  | nil =>
      rw [buildRun_eq]
      subst hitems
      constructor
      · simpa [pushBuildLoop, optBHas] using hf
      · simp only [pushBuildLoop, List.foldl_nil, optBHas, hrem]
        exact hf
  | cons it t =>
      subst hitems
      have hs := pushBuildLoop_synced dg (it :: t)
        (RunState.mk (computeBuildPlan inv ((some f : Option BMan).getD []) force).1
          (some ((some f : Option BMan).getD []))
          (some (serializeB ((some f : Option BMan).getD [])))
          st0.remoteVal st0.remoteBytes
          (st0.log ++ [Effect.downloadManifest (cAdd (cPath "/bld/") "build_manifest.json"),
                       Effect.writeLocalManifest "build_manifest.json"])) (by simp)
      rw [buildRun_eq]
      obtain ⟨_, _, hlv, hrv⟩ := hs
      have hman : bHas (pushBuildLoop dg (it :: t)
          (RunState.mk (computeBuildPlan inv ((some f : Option BMan).getD []) force).1
            (some ((some f : Option BMan).getD []))
            (some (serializeB ((some f : Option BMan).getD [])))
            st0.remoteVal st0.remoteBytes
            (st0.log ++ [Effect.downloadManifest (cAdd (cPath "/bld/") "build_manifest.json"),
                         Effect.writeLocalManifest "build_manifest.json"]))).manifest k a
          = true := by
        rw [bHas_pushBuildLoop]
        refine Or.inl ?_
        simp only [Option.getD_some]
        rw [computeBuildPlan, computeBuildPlanGo_fst]
        exact hf
      rw [hlv, hrv]
      simp only [optBHas]
      exact ⟨hman, hman⟩

/-- Concrete instantiation of the amended claim C2 theorem. -/
theorem manifest_growth_from_fetched_witness :
    optBHas (buildRun wDg (some wManA) wInvA false [("pkgA", "art2")]
        (RunState.mk ([] : BMan) none none (some wManA) none [])).localVal
      "pkgA" "art1" = true
    ∧ optBHas (buildRun wDg (some wManA) wInvA false [("pkgA", "art2")]
        (RunState.mk ([] : BMan) none none (some wManA) none [])).remoteVal
      "pkgA" "art1" = true :=
  manifest_growth_from_fetched wDg wManA wInvA false [("pkgA", "art2")]
    (RunState.mk ([] : BMan) none none (some wManA) none []) rfl
    "pkgA" "art1" (by decide)

/-- Claim C4: per-item manifest persistence — after each successfully
uploaded planned item (every prefix of the loop, not only at the end),
the whole in-memory manifest is serialized once and the same byte string
is held by the remote manifest copy and the local manifest cache, whose
values coincide with the in-memory manifest and name every item
processed so far; for both build artifacts and source packs. -/
theorem per_item_manifest_persistence :
    (∀ (dg : String → String → String) (items : List (String × String))
       (st0 : RunState BMan) (i : Nat), 1 ≤ i → i ≤ items.length →
       SyncedB (pushBuildLoop dg (items.take i) st0)
       ∧ ∀ p ∈ items.take i,
           bHas (pushBuildLoop dg (items.take i) st0).manifest p.1 p.2 = true)
    ∧ (∀ (items : List (String × String)) (st0 : RunState SMan) (i : Nat),
       1 ≤ i → i ≤ items.length →
       SyncedS (pushSourceLoop (items.take i) st0)
       ∧ ∀ p ∈ items.take i,
           sHas (pushSourceLoop (items.take i) st0).manifest p.1 p.2 = true) := by
  constructor
  · intro dg items st0 i h1 h2
    have hne : items.take i ≠ [] := by
      intro h
      rcases List.take_eq_nil_iff.mp h with h3 | h3
      · omega
      · rw [h3] at h2; simp at h2; omega
    refine ⟨pushBuildLoop_synced dg (items.take i) st0 hne, ?_⟩
    intro p hp
    rw [bHas_pushBuildLoop]
    exact Or.inr hp
  · intro items st0 i h1 h2
    have hne : items.take i ≠ [] := by
      intro h
      rcases List.take_eq_nil_iff.mp h with h3 | h3
      · omega
      · rw [h3] at h2; simp at h2; omega
    refine ⟨pushSourceLoop_synced (items.take i) st0 hne, ?_⟩
    intro p hp
    rw [sHas_pushSourceLoop]
    exact Or.inr hp

/-- Concrete instantiation of the claim C4 theorem: one-item loops. -/
theorem per_item_manifest_persistence_witness :
    (SyncedB (pushBuildLoop wDg ([("pkgA", "art2")].take 1) wSt0B)
     ∧ ∀ p ∈ [("pkgA", "art2")].take 1,
         bHas (pushBuildLoop wDg ([("pkgA", "art2")].take 1) wSt0B).manifest p.1 p.2 = true)
    ∧ (SyncedS (pushSourceLoop ([("packs/tar.gz", "x.tar.gz")].take 1) wSt0S)
       ∧ ∀ p ∈ [("packs/tar.gz", "x.tar.gz")].take 1,
           sHas (pushSourceLoop ([("packs/tar.gz", "x.tar.gz")].take 1) wSt0S).manifest
             p.1 p.2 = true) :=
  ⟨per_item_manifest_persistence.1 wDg [("pkgA", "art2")] wSt0B 1 (by decide) (by decide),
   per_item_manifest_persistence.2 [("packs/tar.gz", "x.tar.gz")] wSt0S 1
     (by decide) (by decide)⟩

/-- Claim C6: per-item failure atomicity — if packaging or the blob
upload raises on one planned item (after `pre` succeeded), the run
aborts with an error (nothing after the failing item is processed, in
particular `rest` is never reached), the persisted local and remote
manifest copies are exactly those after `pre` — the failing item is
recorded in neither — and when `pre` is nonempty those copies equal the
in-memory manifest after `pre`, which names every item of `pre`. -/
theorem per_item_failure_atomicity (dg : String → String → String)
    (pre : List (String × String)) (bad : String × String) (f : ItemFail)
    (rest : List ((String × String) × Option ItemFail)) (st0 : RunState BMan) :
    ∃ e, pushBuildLoopE dg (pre.map (fun p => (p, none)) ++ (bad, some f) :: rest) st0
          = Except.error e
      ∧ e.localVal = (pushBuildLoop dg pre st0).localVal
      ∧ e.localBytes = (pushBuildLoop dg pre st0).localBytes
      ∧ e.remoteVal = (pushBuildLoop dg pre st0).remoteVal
      ∧ e.remoteBytes = (pushBuildLoop dg pre st0).remoteBytes
      ∧ (pre ≠ [] →
          e.localVal = some ((pushBuildLoop dg pre st0).manifest)
          ∧ ∀ p ∈ pre, bHas (pushBuildLoop dg pre st0).manifest p.1 p.2 = true) := by
  rw [pushBuildLoopE_ok_front]
  have hprior : pre ≠ [] →
      (pushBuildLoop dg pre st0).localVal = some ((pushBuildLoop dg pre st0).manifest)
      ∧ ∀ p ∈ pre, bHas (pushBuildLoop dg pre st0).manifest p.1 p.2 = true := by
    intro hne
    refine ⟨(pushBuildLoop_synced dg pre st0 hne).2.2.1, ?_⟩
    intro p hp
    rw [bHas_pushBuildLoop]
    exact Or.inr hp
  cases f with
  | packFail =>
      exact ⟨pushBuildLoop dg pre st0, rfl, rfl, rfl, rfl, rfl, hprior⟩
  | uploadFail =>
      refine ⟨RunState.mk
          (bset (pushBuildLoop dg pre st0).manifest bad.1 bad.2 (dg bad.1 bad.2))
          (pushBuildLoop dg pre st0).localVal (pushBuildLoop dg pre st0).localBytes
          (pushBuildLoop dg pre st0).remoteVal (pushBuildLoop dg pre st0).remoteBytes
          ((pushBuildLoop dg pre st0).log
            ++ [Effect.createFolder (cPath ("/bld/" ++ bad.1))]),
        rfl, rfl, rfl, rfl, rfl, hprior⟩

/-- Concrete instantiation of the claim C6 theorem: one successful item,
then an upload failure. -/
theorem per_item_failure_atomicity_witness :
    ∃ e, pushBuildLoopE wDg
          ([("pkgA", "art1")].map (fun p => (p, none))
            ++ (("pkgA", "art2"), some ItemFail.uploadFail) :: []) wSt0B
          = Except.error e
      ∧ e.localVal = (pushBuildLoop wDg [("pkgA", "art1")] wSt0B).localVal
      ∧ e.localBytes = (pushBuildLoop wDg [("pkgA", "art1")] wSt0B).localBytes
      ∧ e.remoteVal = (pushBuildLoop wDg [("pkgA", "art1")] wSt0B).remoteVal
      ∧ e.remoteBytes = (pushBuildLoop wDg [("pkgA", "art1")] wSt0B).remoteBytes
      ∧ ([("pkgA", "art1")] ≠ ([] : List (String × String)) →
          e.localVal = some ((pushBuildLoop wDg [("pkgA", "art1")] wSt0B).manifest)
          ∧ ∀ p ∈ [("pkgA", "art1")],
              bHas (pushBuildLoop wDg [("pkgA", "art1")] wSt0B).manifest p.1 p.2 = true) :=
  per_item_failure_atomicity wDg [("pkgA", "art1")] ("pkgA", "art2")
    ItemFail.uploadFail [] wSt0B

/-- Claim C8: stable manifest blob path — in every build run the one
manifest download and each per-item manifest re-upload address exactly
["bld", "build_manifest.json"] under the build root, and in every source
run they address exactly ["src", "source_manifest.json"] under the
source root (the source re-upload writes CPath('/src'), the download
CPath('/src/'); both normalize to the same hierarchical path). -/
theorem stable_manifest_path :
    (∀ (dg : String → String → String) (fetch : Option BMan)
       (inv : List (String × List String)) (force : Bool)
       (items : List (String × String)) (st0 : RunState BMan), st0.log = [] →
       manifestPathsOf (buildRun dg fetch inv force items st0).log
         = List.replicate (items.length + 1) ["bld", "build_manifest.json"])
    ∧ (∀ (fetch : Option SMan) (sinv : String → List String) (force : Bool)
       (items : List (String × String)) (st0 : RunState SMan), st0.log = [] →
       manifestPathsOf (sourceRun fetch sinv force items st0).log
         = List.replicate (items.length + 1) ["src", "source_manifest.json"]) := by
  constructor
  · intro dg fetch inv force items st0 hlog
    rw [buildRun_eq, pushBuildLoop_paths]
    rw [hlog]
    rw [bldManifestPath_eval]
    simp [manifestPathsOf, List.replicate_succ]
  · intro fetch sinv force items st0 hlog
    rw [sourceRun_eq, pushSourceLoop_paths]
    rw [hlog]
    rw [srcManifestPath_up_eval]
    simp [manifestPathsOf, srcManifestPath_down_eval, List.replicate_succ]

/-- Concrete instantiation of the claim C8 theorem: one-item runs. -/
theorem stable_manifest_path_witness :
    manifestPathsOf (buildRun wDg (some wManA) wInvA false [("pkgA", "art2")] wSt0B).log
      = List.replicate 2 ["bld", "build_manifest.json"]
    ∧ manifestPathsOf (sourceRun (some [("packs/tar.gz", ["y.tar.gz"])])
        (fun s => if s = "packs/tar.gz" then ["x.tar.gz"] else []) false
        [("packs/tar.gz", "x.tar.gz")] wSt0S).log
      = List.replicate 2 ["src", "source_manifest.json"] :=
  ⟨stable_manifest_path.1 wDg (some wManA) wInvA false [("pkgA", "art2")] wSt0B rfl,
   stable_manifest_path.2 (some [("packs/tar.gz", ["y.tar.gz"])])
     (fun s => if s = "packs/tar.gz" then ["x.tar.gz"] else []) false
     [("packs/tar.gz", "x.tar.gz")] wSt0S rfl⟩

/-- Empty environment used for concrete instantiations. -/
def wEnv : Env := Env.mk [] none (fun _ => []) none

/-- Claim C9: every invocation of the push command with dry_run false
reaches the reference to the undefined name `arg` (line 173, in the
storage-setup block guarded by `if not args.dry_run`) and fails there,
before any manifest read, any upload, or any local write — its result
carries the NameError and an empty effect log and output; dry-run
invocations, and only they, avoid that code path. -/
theorem non_dry_run_name_error :
    ∀ (env : Env) (args : Args),
      ((pushCommand env args).error = some RunErr.nameErrorArg ↔ args.dry_run = false)
      ∧ (args.dry_run = false →
          (pushCommand env args).effects = [] ∧ (pushCommand env args).output = "") := by
  intro env args
  cases h : args.dry_run with
  | false => simp [pushCommand, h]
  | true => simp [pushCommand, h]

/-- Concrete instantiation of the claim C9 theorem. -/
theorem non_dry_run_name_error_witness :
    ((pushCommand wEnv (Args.mk false false "build_and_source" "primary")).error
        = some RunErr.nameErrorArg
      ↔ (Args.mk false false "build_and_source" "primary").dry_run = false)
    ∧ ((Args.mk false false "build_and_source" "primary").dry_run = false →
        (pushCommand wEnv (Args.mk false false "build_and_source" "primary")).effects = []
        ∧ (pushCommand wEnv (Args.mk false false "build_and_source" "primary")).output
            = "") :=
  non_dry_run_name_error wEnv (Args.mk false false "build_and_source" "primary")

/-- Source inventory and manifest where pack x.tar.gz is already listed. -/
def sinvX : String → List String :=
  fun s => if s = "packs/tar.gz" then ["x.tar.gz"] else []

def smanX : SMan := [("packs/tar.gz", ["x.tar.gz"])]

/-- Claim C10: with force true, a source pack already listed in the
manifest entry for its subdirectory is planned again, and the push
appends its name to the entry again, so the persisted source manifest
value (both copies equal the in-memory manifest) is a list containing
the same filename twice. -/
theorem source_force_duplicate_append :
    planHas (computeSourcePlan sinvX smanX true).2 "packs/tar.gz" "x.tar.gz" = true
    ∧ (alookup (sourceRun (some smanX) sinvX true
          [("packs/tar.gz", "x.tar.gz")] wSt0S).manifest "packs/tar.gz").getD []
        = ["x.tar.gz", "x.tar.gz"]
    ∧ (sourceRun (some smanX) sinvX true [("packs/tar.gz", "x.tar.gz")] wSt0S).localVal
        = some ((sourceRun (some smanX) sinvX true
            [("packs/tar.gz", "x.tar.gz")] wSt0S).manifest)
    ∧ (sourceRun (some smanX) sinvX true [("packs/tar.gz", "x.tar.gz")] wSt0S).remoteVal
        = some ((sourceRun (some smanX) sinvX true
            [("packs/tar.gz", "x.tar.gz")] wSt0S).manifest) := by
  decide

theorem stringExt {a b : String} (h : a.data = b.data) : a = b := by
  cases a; cases b; exact congrArg String.mk h

theorem strDataAppend (a b : String) : (a ++ b).data = a.data ++ b.data := by
  cases a; cases b; rfl

theorem strAppendAssoc (a b c : String) : a ++ b ++ c = a ++ (b ++ c) :=
  stringExt (by rw [strDataAppend, strDataAppend, strDataAppend, strDataAppend,
    List.append_assoc])

theorem strAppendNil (a : String) : a ++ "" = a := by
  apply stringExt
  rw [strDataAppend]
  show a.data ++ [] = a.data
  exact List.append_nil _

/-- `t` occurs as a contiguous substring of `s`. -/
def StrOccurs (t s : String) : Prop := ∃ x y, s = x ++ t ++ y

theorem strOccurs_append_right (t s u : String) : StrOccurs t s → StrOccurs t (s ++ u) := by
  rintro ⟨x, y, rfl⟩
  exact ⟨x, y ++ u, strAppendAssoc (x ++ t) y u⟩

theorem strOccurs_append_left (t s u : String) : StrOccurs t s → StrOccurs t (u ++ s) := by
  rintro ⟨x, y, rfl⟩
  refine ⟨u ++ x, y, ?_⟩
  rw [← strAppendAssoc u (x ++ t) y, ← strAppendAssoc u x t]

theorem strOccurs_append_self (s t : String) : StrOccurs t (s ++ t) :=
  ⟨s, "", by rw [strAppendNil]⟩

theorem buildDryItemGo_cons (lm : BMan) (k b : String) (rest : List String)
    (sp : String × String) :
    buildDryItemGo lm k (b :: rest) sp
      = buildDryItemGo lm k rest
          (if bHas lm k b then (sp.1 ++ (k ++ "/" ++ b ++ " Skipping\n"), sp.2)
           else (sp.1, sp.2 ++ (k ++ "/" ++ b ++ " Pushing\n"))) := rfl

theorem buildDryItemGo_mono (lm : BMan) (k : String) :
    ∀ (arts : List String) (sp : String × String) (t : String),
    (StrOccurs t sp.1 → StrOccurs t (buildDryItemGo lm k arts sp).1)
    ∧ (StrOccurs t sp.2 → StrOccurs t (buildDryItemGo lm k arts sp).2) := by
  intro arts
  induction arts with
  | nil => intro sp t; exact ⟨id, id⟩
  | cons b rest ih =>
      intro sp t
      rw [buildDryItemGo_cons]
      by_cases hb : bHas lm k b = true
      · rw [if_pos hb]
        exact ⟨fun h => (ih _ t).1 (strOccurs_append_right _ _ _ h),
               fun h => (ih _ t).2 h⟩
      · rw [if_neg hb]
        exact ⟨fun h => (ih _ t).1 h,
               fun h => (ih _ t).2 (strOccurs_append_right _ _ _ h)⟩

theorem buildDryItemGo_skip (lm : BMan) (k : String) :
    ∀ (arts : List String) (sp : String × String) (a : String),
    a ∈ arts → bHas lm k a = true →
    StrOccurs (k ++ "/" ++ a ++ " Skipping\n") (buildDryItemGo lm k arts sp).1 := by
  intro arts
  induction arts with
  | nil => intro sp a h _; cases h
  | cons b rest ih =>
      intro sp a ha hb
      rw [buildDryItemGo_cons]
      rcases List.mem_cons.mp ha with h1 | h1
      · subst h1
        rw [if_pos hb]
        exact (buildDryItemGo_mono lm k rest _ _).1 (strOccurs_append_self _ _)
      · by_cases hbb : bHas lm k b = true
        · rw [if_pos hbb]; exact ih _ a h1 hb
        · rw [if_neg hbb]; exact ih _ a h1 hb

theorem buildDryItemGo_push (lm : BMan) (k : String) :
    ∀ (arts : List String) (sp : String × String) (a : String),
    a ∈ arts → bHas lm k a = false →
    StrOccurs (k ++ "/" ++ a ++ " Pushing\n") (buildDryItemGo lm k arts sp).2 := by
  intro arts
  induction arts with
  | nil => intro sp a h _; cases h
  | cons b rest ih =>
      intro sp a ha hb
      rw [buildDryItemGo_cons]
      rcases List.mem_cons.mp ha with h1 | h1
      · subst h1
        rw [if_neg (by simp [hb])]
        exact (buildDryItemGo_mono lm k rest _ _).2 (strOccurs_append_self _ _)
      · by_cases hbb : bHas lm k b = true
        · rw [if_pos hbb]; exact ih _ a h1 hb
        · rw [if_neg hbb]; exact ih _ a h1 hb

theorem buildDryGo_cons (lm : BMan) (kv : String × List String)
    (invt : List (String × List String)) (sp : String × String) :
    buildDryGo lm (kv :: invt) sp = buildDryGo lm invt (buildDryItemGo lm kv.1 kv.2 sp) := rfl

theorem buildDryGo_mono (lm : BMan) :
    ∀ (inv : List (String × List String)) (sp : String × String) (t : String),
    (StrOccurs t sp.1 → StrOccurs t (buildDryGo lm inv sp).1)
    ∧ (StrOccurs t sp.2 → StrOccurs t (buildDryGo lm inv sp).2) := by
  intro inv
  induction inv with
  | nil => intro sp t; exact ⟨id, id⟩
  | cons kv invt ih =>
      intro sp t
      rw [buildDryGo_cons]
      exact ⟨fun h => (ih _ t).1 ((buildDryItemGo_mono lm kv.1 kv.2 sp t).1 h),
             fun h => (ih _ t).2 ((buildDryItemGo_mono lm kv.1 kv.2 sp t).2 h)⟩

theorem buildDryGo_skip (lm : BMan) :
    ∀ (inv : List (String × List String)) (sp : String × String)
      (k : String) (arts : List String) (a : String),
    (k, arts) ∈ inv → a ∈ arts → bHas lm k a = true →
    StrOccurs (k ++ "/" ++ a ++ " Skipping\n") (buildDryGo lm inv sp).1 := by
  intro inv
  induction inv with
  | nil => intro sp k arts a h _ _; cases h
  | cons kv invt ih =>
      intro sp k arts a hm ha hb
      rw [buildDryGo_cons]
      rcases List.mem_cons.mp hm with h1 | h1
      · have hk : kv.1 = k := (congrArg Prod.fst h1).symm
        have haa : kv.2 = arts := (congrArg Prod.snd h1).symm
        refine (buildDryGo_mono lm invt _ _).1 ?_
        rw [hk, haa]
        exact buildDryItemGo_skip lm k arts sp a ha hb
      · exact ih _ k arts a h1 ha hb

theorem buildDryGo_push (lm : BMan) :
    ∀ (inv : List (String × List String)) (sp : String × String)
      (k : String) (arts : List String) (a : String),
    (k, arts) ∈ inv → a ∈ arts → bHas lm k a = false →
    StrOccurs (k ++ "/" ++ a ++ " Pushing\n") (buildDryGo lm inv sp).2 := by
  intro inv
  induction inv with
  | nil => intro sp k arts a h _ _; cases h
  | cons kv invt ih =>
      intro sp k arts a hm ha hb
      rw [buildDryGo_cons]
      rcases List.mem_cons.mp hm with h1 | h1
      · have hk : kv.1 = k := (congrArg Prod.fst h1).symm
        have haa : kv.2 = arts := (congrArg Prod.snd h1).symm
        refine (buildDryGo_mono lm invt _ _).2 ?_
        rw [hk, haa]
        exact buildDryItemGo_push lm k arts sp a ha hb
      · exact ih _ k arts a h1 ha hb

theorem sourceDryItemGo_cons (lm : SMan) (k b : String) (rest : List String)
    (sp : String × String) :
    sourceDryItemGo lm k (b :: rest) sp
      = sourceDryItemGo lm k rest
          (if sHas lm k b then (sp.1 ++ (k ++ "/" ++ b ++ " Skipping\n"), sp.2)
           else (sp.1, sp.2 ++ (k ++ "/" ++ b ++ " Pushing\n"))) := rfl

theorem sourceDryItemGo_mono (lm : SMan) (k : String) :
    ∀ (packs : List String) (sp : String × String) (t : String),
    (StrOccurs t sp.1 → StrOccurs t (sourceDryItemGo lm k packs sp).1)
    ∧ (StrOccurs t sp.2 → StrOccurs t (sourceDryItemGo lm k packs sp).2) := by
  intro packs
  induction packs with
  | nil => intro sp t; exact ⟨id, id⟩
  | cons b rest ih =>
      intro sp t
      rw [sourceDryItemGo_cons]
      by_cases hb : sHas lm k b = true
      · rw [if_pos hb]
        exact ⟨fun h => (ih _ t).1 (strOccurs_append_right _ _ _ h),
               fun h => (ih _ t).2 h⟩
      · rw [if_neg hb]
        exact ⟨fun h => (ih _ t).1 h,
               fun h => (ih _ t).2 (strOccurs_append_right _ _ _ h)⟩

theorem sourceDryItemGo_skip (lm : SMan) (k : String) :
    ∀ (packs : List String) (sp : String × String) (a : String),
    a ∈ packs → sHas lm k a = true →
    StrOccurs (k ++ "/" ++ a ++ " Skipping\n") (sourceDryItemGo lm k packs sp).1 := by
  intro packs
  induction packs with
  | nil => intro sp a h _; cases h
  | cons b rest ih =>
      intro sp a ha hb
      rw [sourceDryItemGo_cons]
      rcases List.mem_cons.mp ha with h1 | h1
      · subst h1
        rw [if_pos hb]
        exact (sourceDryItemGo_mono lm k rest _ _).1 (strOccurs_append_self _ _)
      · by_cases hbb : sHas lm k b = true
        · rw [if_pos hbb]; exact ih _ a h1 hb
        · rw [if_neg hbb]; exact ih _ a h1 hb

theorem sourceDryItemGo_push (lm : SMan) (k : String) :
    ∀ (packs : List String) (sp : String × String) (a : String),
    a ∈ packs → sHas lm k a = false →
    StrOccurs (k ++ "/" ++ a ++ " Pushing\n") (sourceDryItemGo lm k packs sp).2 := by
  intro packs
  induction packs with
  | nil => intro sp a h _; cases h
  | cons b rest ih =>
      intro sp a ha hb
      rw [sourceDryItemGo_cons]
      rcases List.mem_cons.mp ha with h1 | h1
      · subst h1
        rw [if_neg (by simp [hb])]
        exact (sourceDryItemGo_mono lm k rest _ _).2 (strOccurs_append_self _ _)
      · by_cases hbb : sHas lm k b = true
        · rw [if_pos hbb]; exact ih _ a h1 hb
        · rw [if_neg hbb]; exact ih _ a h1 hb

theorem sourceDryGo_cons (lm : SMan) (subdir : String) (subs : List String)
    (sinv : String → List String) (sp : String × String) :
    sourceDryGo lm (subdir :: subs) sinv sp
      = sourceDryGo lm subs sinv (sourceDryItemGo lm subdir (sinv subdir) sp) := rfl

theorem sourceDryGo_mono (lm : SMan) (sinv : String → List String) :
    ∀ (subs : List String) (sp : String × String) (t : String),
    (StrOccurs t sp.1 → StrOccurs t (sourceDryGo lm subs sinv sp).1)
    ∧ (StrOccurs t sp.2 → StrOccurs t (sourceDryGo lm subs sinv sp).2) := by
  intro subs
  induction subs with
  | nil => intro sp t; exact ⟨id, id⟩
  | cons subdir rest ih =>
      intro sp t
      rw [sourceDryGo_cons]
      exact ⟨fun h => (ih _ t).1 ((sourceDryItemGo_mono lm subdir (sinv subdir) sp t).1 h),
             fun h => (ih _ t).2 ((sourceDryItemGo_mono lm subdir (sinv subdir) sp t).2 h)⟩

theorem sourceDryGo_skip (lm : SMan) (sinv : String → List String) :
    ∀ (subs : List String) (sp : String × String) (k a : String),
    k ∈ subs → a ∈ sinv k → sHas lm k a = true →
    StrOccurs (k ++ "/" ++ a ++ " Skipping\n") (sourceDryGo lm subs sinv sp).1 := by
  intro subs
  induction subs with
  | nil => intro sp k a h _ _; cases h
  | cons subdir rest ih =>
      intro sp k a hm ha hb
      rw [sourceDryGo_cons]
      rcases List.mem_cons.mp hm with h1 | h1
      · subst h1
        exact (sourceDryGo_mono lm sinv rest _ _).1
          (sourceDryItemGo_skip lm k (sinv k) sp a ha hb)
      · exact ih _ k a h1 ha hb

theorem sourceDryGo_push (lm : SMan) (sinv : String → List String) :
    ∀ (subs : List String) (sp : String × String) (k a : String),
    k ∈ subs → a ∈ sinv k → sHas lm k a = false →
    StrOccurs (k ++ "/" ++ a ++ " Pushing\n") (sourceDryGo lm subs sinv sp).2 := by
  intro subs
  induction subs with
  | nil => intro sp k a h _ _; cases h
  | cons subdir rest ih =>
      intro sp k a hm ha hb
      rw [sourceDryGo_cons]
      rcases List.mem_cons.mp hm with h1 | h1
      · subst h1
        exact (sourceDryGo_mono lm sinv rest _ _).2
          (sourceDryItemGo_push lm k (sinv k) sp a ha hb)
      · exact ih _ k a h1 ha hb

/-- Claim C7 as stated is false in one detail: the fixed hint is not a
trailing hint. With scenario A's inputs the dry-run output is the
Skipping list, then the hint, then the Pushing list (lines 235-237), so
the hint is followed by "pkgA/art2 Pushing" and the output does not end
with the hint. -/
theorem dry_run_trailing_hint_counterexample :
    buildDryOutput wInvA wManA
      = "pkgA/art1 Skipping\nUse --force to push all artifacts\npkgA/art2 Pushing\n"
    ∧ ¬ (∃ x : String, buildDryOutput wInvA wManA = x ++ hintBuild) := by
  constructor
  · decide
  · rintro ⟨x, hx⟩
    have hdata : (buildDryOutput wInvA wManA).data = x.data ++ hintBuild.data := by
      rw [hx, strDataAppend]
    have hlen : (buildDryOutput wInvA wManA).data.length
        = x.data.length + hintBuild.data.length := by
      rw [hdata, List.length_append]
    have h71 : (buildDryOutput wInvA wManA).data.length = 71 := by decide
    have h34 : hintBuild.data.length = 34 := by decide
    have hlen2 : x.data.length = 37 := by omega
    have hdrop : (buildDryOutput wInvA wManA).data.drop 37 = hintBuild.data := by
      rw [hdata, ← hlen2, List.drop_left]
    have hne : (buildDryOutput wInvA wManA).data.drop 37 ≠ hintBuild.data := by decide
    exact hne hdrop

/-- Claim C7 amended: for every collection key and item of the local
inventory the dry-run output contains the line "key/item Skipping" when
the item is named in the local manifest cache and "key/item Pushing"
otherwise (build artifacts and source packs alike); the output is the
Skipping list, then the fixed --force hint, then the Pushing list (the
hint sits between the two lists rather than trailing the output); no
remote calls are made in dry-run mode; and on scenario A's inputs the
output lists pkgA/art1 Skipping and pkgA/art2 Pushing. -/
theorem dry_run_output_lines :
    (∀ (inv : List (String × List String)) (lm : BMan) (k : String)
       (arts : List String) (a : String),
       (k, arts) ∈ inv → a ∈ arts →
       (bHas lm k a = true →
         StrOccurs (k ++ "/" ++ a ++ " Skipping\n") (buildDryOutput inv lm))
       ∧ (bHas lm k a = false →
         StrOccurs (k ++ "/" ++ a ++ " Pushing\n") (buildDryOutput inv lm)))
    ∧ (∀ (sinv : String → List String) (slm : SMan) (k a : String),
       k ∈ sourceSubdirs → a ∈ sinv k →
       (sHas slm k a = true →
         StrOccurs (k ++ "/" ++ a ++ " Skipping\n") (sourceDryOutput sinv slm))
       ∧ (sHas slm k a = false →
         StrOccurs (k ++ "/" ++ a ++ " Pushing\n") (sourceDryOutput sinv slm)))
    ∧ (∀ (inv : List (String × List String)) (lm : BMan),
       buildDryOutput inv lm
         = (buildDryLists inv lm).1 ++ hintBuild ++ (buildDryLists inv lm).2)
    ∧ (∀ (sinv : String → List String) (slm : SMan),
       sourceDryOutput sinv slm
         = (sourceDryLists sinv slm).1 ++ hintSource ++ (sourceDryLists sinv slm).2)
    ∧ (∀ (env : Env) (args : Args), args.dry_run = true →
       ∀ e ∈ (pushCommand env args).effects, e.isRemote = false)
    ∧ buildDryOutput wInvA wManA
        = "pkgA/art1 Skipping\nUse --force to push all artifacts\npkgA/art2 Pushing\n" := by
  refine ⟨?_, ?_, ?_, ?_, ?_, by decide⟩
  · intro inv lm k arts a hm ha
    constructor
    · intro hb
      exact strOccurs_append_right _ _ _
        (strOccurs_append_right _ _ _ (buildDryGo_skip lm inv ("", "") k arts a hm ha hb))
    · intro hb
      exact strOccurs_append_left _ _ _
        (buildDryGo_push lm inv ("", "") k arts a hm ha hb)
  · intro sinv slm k a hm ha
    constructor
    · intro hb
      exact strOccurs_append_right _ _ _
        (strOccurs_append_right _ _ _ (sourceDryGo_skip slm sinv sourceSubdirs ("", "") k a hm ha hb))
    · intro hb
      exact strOccurs_append_left _ _ _
        (sourceDryGo_push slm sinv sourceSubdirs ("", "") k a hm ha hb)
  · intro inv lm; rfl
  · intro sinv slm; rfl
  · intro env args hdry e he
    simp only [pushCommand, hdry] at he
    by_cases hb : args.objects = "build" ∨ args.objects = "build_and_source" <;>
      by_cases hs : args.objects = "source" ∨ args.objects = "build_and_source" <;>
        simp only [hb, hs, if_true, if_false] at he <;>
          simp at he
    · rcases he with he | he <;> rw [he] <;> rfl
    · rw [he]; rfl
    · rw [he]; rfl

/-- Concrete instantiation of the amended claim C7 theorem. -/
theorem dry_run_output_lines_witness :
    StrOccurs ("pkgA" ++ "/" ++ "art1" ++ " Skipping\n") (buildDryOutput wInvA wManA)
    ∧ StrOccurs ("pkgA" ++ "/" ++ "art2" ++ " Pushing\n") (buildDryOutput wInvA wManA)
    ∧ (∀ e ∈ (pushCommand wEnv (Args.mk true false "build_and_source" "primary")).effects,
        e.isRemote = false) :=
  ⟨(dry_run_output_lines.1 wInvA wManA "pkgA" ["art1", "art2"] "art1"
      (by decide) (by decide)).1 (by decide),
   (dry_run_output_lines.1 wInvA wManA "pkgA" ["art1", "art2"] "art2"
      (by decide) (by decide)).2 (by decide),
   dry_run_output_lines.2.2.2.2.1 wEnv (Args.mk true false "build_and_source" "primary") rfl⟩
